import Mathlib

/-!
Shallow embedding of `bilby/core/utils/calculus.py`.

The module contains three independent numerical components:

* `derivatives` — adaptive central-difference gradient estimator with a
  per-index convergence loop (embedded over `ℚ`, idealising IEEE floats by
  exact rational arithmetic; the only float phenomenon the control flow
  depends on is non-finiteness of `cdiff / cdiffnew`, which in exact
  arithmetic happens exactly when `cdiffnew = 0`, so finiteness is embedded
  as `cdiffnew ≠ 0`).
* `logtrapzexp` — log-domain trapezium integration (embedded over `ℝ`,
  since its meaning lives in `Real.log`/`Real.exp`).
* `UnsortedInterp2d.call` — the overridden `interp2d.__call__` together
  with `_sanitize_inputs`: shape reconciliation, element-wise pairing and
  out-of-bounds fill handling (arrays embedded as a shape plus a
  multi-index valuation).

Python exceptions are embedded as an explicit error type; each constructor
corresponds to one distinct `raise` site (or, for `emptySequenceMax`, to the
`ValueError` that the Python builtins `max`/`min` raise on an empty
sequence at line `max(nonfixedidx)`). The `while` loop of `derivatives`
carries a fuel parameter: `none` models non-termination, every terminating
run is `some`.
-/

namespace BilbyCalculus

/-- Errors raised by the module. One constructor per distinct raise site:
`tooManyNonFixed`, `nonExistentIndices` and the step-size errors come from
`derivatives`; `emptySequenceMax` is the `ValueError` Python's builtin
`max`/`min` raises when `nonfixedidx` is empty; `stepLengthMismatch` and
`stepTypeBad` come from `logtrapzexp`; `shapeMismatch` carries the original
(pre-reconciliation) shapes, as the `ValueError` message of
`_sanitize_inputs` does. -/
inductive Err where
  | tooManyNonFixed
  | nonExistentIndices
  | emptySequenceMax
  | relStepsLength
  | relStepsType
  | absStepsLength
  | absStepsType
  | stepLengthMismatch
  | stepTypeBad
  | shapeMismatch (sx sy : List Nat)
deriving DecidableEq

/-- A step-size argument as dynamically dispatched by the Python code:
a scalar (`float`, or `int`/`float` for `logtrapzexp`), a sequence
(`list`/`np.ndarray`), or a value of any other type (`other`), which the
code rejects. -/
inductive StepArg (α : Type) where
  | scalar (v : α)
  | seq (l : List α)
  | other

/-- Central finite difference of `func` at `vals`, perturbing coordinate
`i` by `± l / 2` (lines 107–109 / 127–129; exact arithmetic makes
"remove the old step, add the new one" equal to perturbing `vals`
directly). Division by zero is `ℚ`-junk (0), reached only when the
initial step is zero. -/
def centralDiff (func : List ℚ → ℚ) (vals : List ℚ) (i : Nat) (l : ℚ) : ℚ :=
  (func (vals.set i (vals.getD i 0 + l / 2)) - func (vals.set i (vals.getD i 0 - l / 2))) / l

/-- The `while 1:` convergence loop of `derivatives` (lines 111–148) for a
single index, with fuel. State: current absolute half-step `leps`, current
tracking scale `cureps`, sign-flip counter `flipflop`, previous estimate
`cdiff`. `flipflopmax = 10`. Finiteness of `rat = cdiff / cdiffnew` is
`cdiffnew ≠ 0` (see module comment). -/
def loopGo (func : List ℚ → ℚ) (vals : List ℚ) (i : Nat)
    (mineps reltol epsscale : ℚ) :
    Nat → ℚ → ℚ → Nat → ℚ → Option ℚ
  | 0, _, _, _, _ => none
  | fuel + 1, leps, cureps, flipflop, cdiff =>
    if cureps * epsscale < mineps ∨ flipflop > 10 then
      -- no convergence: set flat derivative (the code also logs a warning)
      some 0
    else
      let cdiffnew := centralDiff func vals i (leps * epsscale)
      if cdiffnew = cdiff then
        some cdiff
      else if cdiffnew ≠ 0 ∧ 0 < cdiff / cdiffnew then
        if |1 - cdiff / cdiffnew| < reltol then
          some cdiffnew
        else
          loopGo func vals i mineps reltol epsscale fuel
            (leps * epsscale) (cureps * epsscale) flipflop cdiffnew
      else
        loopGo func vals i mineps reltol epsscale fuel
          (leps * epsscale) (cureps * epsscale) (flipflop + 1) cdiffnew

/-- One index of the gradient loop (lines 95–150): initial diffs from
`eps[i]`/`teps[i]`, first central difference, then the convergence loop. -/
def derivOne (func : List ℚ → ℚ) (vals : List ℚ) (mineps reltol epsscale : ℚ)
    (eps teps : List ℚ) (i : Nat) (fuel : Nat) : Option ℚ :=
  loopGo func vals i mineps reltol epsscale fuel
    (eps.getD i 0) (teps.getD i 0) 0 (centralDiff func vals i (eps.getD i 0))

/-- Validation and step initialisation of `derivatives` (lines 54–91).
Returns the non-fixed index list together with the `eps` (absolute
half-steps) and `teps` (tracking scales) arrays. The second `if` embeds
the fact that Python's `max`/`min` raise `ValueError` on an empty
sequence before the range comparison can happen. -/
def defaultIdx (vals : List ℚ) : Option (List Int) → List Int
  | none => (List.range vals.length).map Int.ofNat
  | some l => l

def derivPrep (vals : List ℚ) (releps : StepArg ℚ) (abseps : Option (StepArg ℚ))
    (nonfixedidx : Option (List Int)) :
    Except Err (List Int × List ℚ × List ℚ) :=
  let nfi : List Int := defaultIdx vals nonfixedidx
  if nfi.length > vals.length then
    .error .tooManyNonFixed
  else if nfi.isEmpty then
    .error .emptySequenceMax
  else if nfi.foldl max (nfi.headD 0) ≥ (vals.length : Int) ∨
      nfi.foldl min (nfi.headD 0) < 0 then
    .error .nonExistentIndices
  else
    match abseps with
    | none =>
      match releps with
      | .scalar r =>
        .ok (nfi, vals.map (fun v => if |v| * r = 0 then r else |v| * r),
          List.replicate vals.length r)
      | .seq rl =>
        if rl.length ≠ vals.length then
          .error .relStepsLength
        else
          .ok (nfi, List.zipWith (fun v r => if |v| * r = 0 then r else |v| * r) vals rl, rl)
      | .other => .error .relStepsType
    | some a =>
      match a with
      | .scalar av =>
        .ok (nfi, List.replicate vals.length av, List.replicate vals.length av)
      | .seq al =>
        if al.length ≠ vals.length then
          .error .absStepsLength
        else
          .ok (nfi, al, al)
      | .other => .error .absStepsType

/-- Collect the per-index loop results; `none` when any index ran out of
fuel (the Python loop for that index had not yet terminated). -/
def collectResults (f : Int → Option ℚ) : List Int → Option (List ℚ)
  | [] => some []
  | i :: l =>
    match f i, collectResults f l with
    | some g, some gs => some (g :: gs)
    | _, _ => none

/-- `derivatives` (lines 10–152): validation and step setup, then the
per-index convergence loops in the order of `nonfixedidx`. -/
def derivatives (vals : List ℚ) (func : List ℚ → ℚ) (releps : StepArg ℚ)
    (abseps : Option (StepArg ℚ)) (mineps reltol epsscale : ℚ)
    (nonfixedidx : Option (List Int)) (fuel : Nat) :
    Except Err (Option (List ℚ)) :=
  match derivPrep vals releps abseps nonfixedidx with
  | .error e => .error e
  | .ok (nfi, eps, teps) =>
    .ok (collectResults
      (fun i => derivOne func vals mineps reltol epsscale eps teps i.toNat fuel) nfi)

/-- `scipy.special.logsumexp` on a list of log-values. The max-shift that
scipy performs is a numerically stable way of computing exactly
`log (Σ exp xᵢ)`, which is what the exact-real embedding states. -/
noncomputable def logsumexp (l : List ℝ) : ℝ :=
  Real.log (l.map Real.exp).sum

/-- `logtrapzexp` (lines 155–189): log-domain trapezium integration.
`lnfdx1 = lnf[:-1]`, `lnfdx2 = lnf[1:]`; a scalar step contributes
`log (dx / 2)`, a step array of length `len lnf - 1` is added (as logs)
elementwise to both slices with constant `-log 2`; any other length or
type raises. -/
noncomputable def logtrapzexp (lnf : List ℝ) (dx : StepArg ℝ) : Except Err ℝ :=
  let lnfdx1 := lnf.dropLast
  let lnfdx2 := lnf.drop 1
  match dx with
  | .scalar v =>
    .ok (Real.log (v / 2) + logsumexp [logsumexp lnfdx1, logsumexp lnfdx2])
  | .seq d =>
    if d.length ≠ lnf.length - 1 then
      .error .stepLengthMismatch
    else
      .ok (-Real.log 2 +
        logsumexp [logsumexp (List.zipWith (fun a b => a + b) lnfdx1 (d.map Real.log)),
          logsumexp (List.zipWith (fun a b => a + b) lnfdx2 (d.map Real.log))])
  | .other => .error .stepTypeBad

/-- A numpy array of rationals: a shape and a valuation of multi-indices
(only indices elementwise below the shape are meaningful). -/
structure Arr where
  shape : List Nat
  get : List Nat → ℚ

/-- A `__call__` / `_sanitize_inputs` argument: a Python `Number` or an
ndarray. -/
inductive XY where
  | num (v : ℚ)
  | arr (a : Arr)

/-- `float(x)` applied to a size-1 ndarray (lines 242–245): collapse it to
its unique element; anything else is kept. -/
def collapse : XY → XY
  | .num v => .num v
  | .arr a => if a.shape.prod = 1 then .num (a.get (a.shape.map fun _ => 0)) else .arr a

/-- An array of constant value over a given shape (`y * np.ones_like(x)`,
lines 260–263). -/
def constArr (shape : List Nat) (v : ℚ) : Arr :=
  ⟨shape, fun _ => v⟩

/-- `np.expand_dims(·, -1)` iterated until the rank reaches `r`: right-pad
the shape with size-1 dimensions; reading ignores the padded trailing
indices. -/
def padTo (a : Arr) (r : Nat) : Arr :=
  ⟨a.shape ++ List.replicate (r - a.shape.length) 1, fun idx => a.get (idx.take a.shape.length)⟩

/-- numpy broadcast compatibility of two equal-rank shapes: dimensions
pair off when equal or when either is 1. -/
def compatShape : List Nat → List Nat → Bool
  | [], [] => true
  | a :: s, b :: t => (a = b || a = 1 || b = 1) && compatShape s t
  | _, _ => false

/-- Reading a broadcast value: a size-1 dimension of the source always
reads index 0. -/
def bcastIdx (s : List Nat) (idx : List Nat) : List Nat :=
  List.zipWith (fun n i => if n = 1 then 0 else i) s idx

/-- `a * np.ones(t)` (lines 253–255): broadcast `a` against shape `t`;
`none` models the `ValueError` numpy raises for incompatible shapes. -/
def bmulOnes (a : Arr) (t : List Nat) : Option Arr :=
  if compatShape a.shape t then
    some ⟨List.zipWith max a.shape t, fun idx => a.get (bcastIdx a.shape idx)⟩
  else
    none

/-- Result of `_sanitize_inputs`: either two scalars or two arrays (the
mixed branches always return same-kind pairs). -/
inductive SanResult where
  | nums (x y : ℚ)
  | arrs (xa ya : Arr)

/-- `_sanitize_inputs` (lines 240–264): collapse size-1 arrays to scalars;
two arrays with differing shapes are rank-padded with trailing size-1
dimensions and broadcast against each other (`x * ones(y.shape)`, then
`y * ones(x.shape)`); an incompatible pair raises with the original
(post-collapse, pre-reconciliation) shapes; a scalar paired with an array
is spread over the array's shape. -/
def sanitizeInputs (x0 y0 : XY) : Except Err SanResult :=
  match collapse x0, collapse y0 with
  | .num x, .num y => .ok (.nums x y)
  | .arr xa, .num y => .ok (.arrs xa (constArr xa.shape y))
  | .num x, .arr ya => .ok (.arrs (constArr ya.shape x) ya)
  | .arr xa, .arr ya =>
    let r := max xa.shape.length ya.shape.length
    let xp := if xa.shape = ya.shape then xa else padTo xa r
    let yp := if xa.shape = ya.shape then ya else padTo ya r
    match bmulOnes xp yp.shape with
    | none => .error (.shapeMismatch xa.shape ya.shape)
    | some xb =>
      match bmulOnes yp xb.shape with
      | none => .error (.shapeMismatch xa.shape ya.shape)
      | some yb => .ok (.arrs xb yb)

/-- The state of an `UnsortedInterp2d` instance read by `__call__`: the
domain bounds, the fill value, and the fitted-spline evaluation
`bispeu(*self.tck, x, y)` abstracted as a pointwise function `ev` (the
spline fit itself is an external collaborator; its error codes `ier` are
out of scope, so `ev` is total). -/
structure UnsortedInterp2d where
  x_min : ℚ
  x_max : ℚ
  y_min : ℚ
  y_max : ℚ
  fill_value : ℚ
  ev : ℚ → ℚ → ℚ

/-- `bad = out_of_bounds_x | out_of_bounds_y` (lines 217–219). -/
def outOfBounds (s : UnsortedInterp2d) (x y : ℚ) : Bool :=
  (x < s.x_min || x > s.x_max) || (y < s.y_min || y > s.y_max)

/-- Output of `__call__`: a scalar for scalar inputs, an array for array
inputs. -/
inductive Out where
  | num (v : ℚ)
  | arr (a : Arr)

/-- `UnsortedInterp2d.__call__` (lines 193–238): sanitize, mask the
out-of-bounds points with `fill_value`, evaluate the spline on the rest
(the masked assignment `output[~bad] = bispeu(...)` is elementwise). -/
def UnsortedInterp2d.call (s : UnsortedInterp2d) (x y : XY) : Except Err Out :=
  match sanitizeInputs x y with
  | .error e => .error e
  | .ok (.nums xv yv) =>
    .ok (.num (if outOfBounds s xv yv then s.fill_value else s.ev xv yv))
  | .ok (.arrs xa ya) =>
    .ok (.arr ⟨xa.shape, fun idx =>
      if outOfBounds s (xa.get idx) (ya.get idx) then s.fill_value
      else s.ev (xa.get idx) (ya.get idx)⟩)

/-! ### Helper lemmas -/

theorem le_foldl_max (l : List Int) : ∀ a : Int, a ≤ l.foldl max a := by
  induction l with
  | nil => intro a; simp
  | cons b t ih =>
    intro a
    calc a ≤ max a b := le_max_left a b
    _ ≤ List.foldl max (max a b) t := ih (max a b)

theorem mem_le_foldl_max (l : List Int) : ∀ (a x : Int), x ∈ l → x ≤ l.foldl max a := by
  induction l with
  | nil => intro a x hx; cases hx
  | cons b t ih =>
    intro a x hx
    rcases List.mem_cons.mp hx with h | h
    · subst h
      calc x ≤ max a x := le_max_right a x
      _ ≤ List.foldl max (max a x) t := le_foldl_max t (max a x)
    · exact ih (max a b) x h

theorem foldl_min_le (l : List Int) : ∀ a : Int, l.foldl min a ≤ a := by
  induction l with
  | nil => intro a; simp
  | cons b t ih =>
    intro a
    calc List.foldl min (min a b) t ≤ min a b := ih (min a b)
    _ ≤ a := min_le_left a b

theorem foldl_min_le_mem (l : List Int) : ∀ (a x : Int), x ∈ l → l.foldl min a ≤ x := by
  induction l with
  | nil => intro a x hx; cases hx
  | cons b t ih =>
    intro a x hx
    rcases List.mem_cons.mp hx with h | h
    · subst h
      calc List.foldl min (min a x) t ≤ min a x := foldl_min_le t (min a x)
      _ ≤ x := min_le_right a x
    · exact ih (min a b) x h

theorem collectResults_length (f : Int → Option ℚ) :
    ∀ (l : List Int) (g : List ℚ), collectResults f l = some g → g.length = l.length := by
  intro l
  induction l with
  | nil => intro g hg; simp only [collectResults] at hg; cases hg; rfl
  | cons i t ih =>
    intro g hg
    simp only [collectResults] at hg
    cases hfi : f i with
    | none => rw [hfi] at hg; cases hg
    | some v =>
      cases hct : collectResults f t with
      | none => rw [hfi, hct] at hg; cases hg
      | some gs =>
        rw [hfi, hct] at hg
        cases hg
        simp [ih gs hct]

theorem collectResults_all_some (f : Int → Option ℚ) :
    ∀ l : List Int, (∀ i ∈ l, ∃ v, f i = some v) →
      ∃ g, collectResults f l = some g := by
  intro l
  induction l with
  | nil => intro _; exact ⟨[], rfl⟩
  | cons i t ih =>
    intro h
    obtain ⟨v, hv⟩ := h i (List.mem_cons_self i t)
    obtain ⟨gs, hgs⟩ := ih fun j hj => h j (List.mem_cons_of_mem i hj)
    exact ⟨v :: gs, by simp [collectResults, hv, hgs]⟩

/-- A successful `derivPrep` returns the requested index list (the default
being all indices of `vals`). -/
theorem derivPrep_ok_nfi (vals : List ℚ) (releps : StepArg ℚ)
    (abseps : Option (StepArg ℚ)) (idx : Option (List Int))
    (nfi : List Int) (eps teps : List ℚ)
    (h : derivPrep vals releps abseps idx = .ok (nfi, eps, teps)) :
    nfi = defaultIdx vals idx := by
  simp only [derivPrep] at h
  repeat' split at h
  all_goals simp_all

theorem derivPrep_ok_len (vals : List ℚ) (releps : StepArg ℚ)
    (abseps : Option (StepArg ℚ)) (idx : Option (List Int))
    (nfi : List Int) (eps teps : List ℚ)
    (h : derivPrep vals releps abseps idx = .ok (nfi, eps, teps)) :
    nfi.length ≤ vals.length := by
  have hn := derivPrep_ok_nfi vals releps abseps idx nfi eps teps h
  subst hn
  simp only [derivPrep] at h
  repeat' split at h
  all_goals simp_all

theorem derivPrep_ok_nonempty (vals : List ℚ) (releps : StepArg ℚ)
    (abseps : Option (StepArg ℚ)) (idx : Option (List Int))
    (nfi : List Int) (eps teps : List ℚ)
    (h : derivPrep vals releps abseps idx = .ok (nfi, eps, teps)) :
    nfi ≠ [] := by
  have hn := derivPrep_ok_nfi vals releps abseps idx nfi eps teps h
  subst hn
  simp only [derivPrep] at h
  repeat' split at h
  all_goals simp_all

theorem derivPrep_ok_bounds (vals : List ℚ) (releps : StepArg ℚ)
    (abseps : Option (StepArg ℚ)) (idx : Option (List Int))
    (nfi : List Int) (eps teps : List ℚ)
    (h : derivPrep vals releps abseps idx = .ok (nfi, eps, teps)) :
    nfi.foldl max (nfi.headD 0) < (vals.length : Int) ∧
      0 ≤ nfi.foldl min (nfi.headD 0) := by
  have hn := derivPrep_ok_nfi vals releps abseps idx nfi eps teps h
  subst hn
  simp only [derivPrep] at h
  repeat' split at h
  all_goals simp_all

/-- A successful `derivPrep` with a relative step-size sequence implies the
sequence had the right length. -/
theorem derivPrep_relseq_len (vals : List ℚ) (rl : List ℚ)
    (idx : Option (List Int)) (st : List Int × List ℚ × List ℚ)
    (h : derivPrep vals (.seq rl) none idx = .ok st) :
    rl.length = vals.length := by
  simp only [derivPrep] at h
  repeat' split at h
  all_goals simp_all

theorem derivPrep_relother_err (vals : List ℚ) (idx : Option (List Int))
    (st : List Int × List ℚ × List ℚ)
    (h : derivPrep vals .other none idx = .ok st) : False := by
  simp only [derivPrep] at h
  repeat' split at h
  all_goals simp_all

theorem derivPrep_absseq_len (vals : List ℚ) (releps : StepArg ℚ) (al : List ℚ)
    (idx : Option (List Int)) (st : List Int × List ℚ × List ℚ)
    (h : derivPrep vals releps (some (.seq al)) idx = .ok st) :
    al.length = vals.length := by
  simp only [derivPrep] at h
  repeat' split at h
  all_goals simp_all

theorem derivPrep_absother_err (vals : List ℚ) (releps : StepArg ℚ)
    (idx : Option (List Int)) (st : List Int × List ℚ × List ℚ)
    (h : derivPrep vals releps (some .other) idx = .ok st) : False := by
  simp only [derivPrep] at h
  repeat' split at h
  all_goals simp_all

/-- The convergence loop cannot run out of fuel once the tracking scale is
guaranteed to fall below `mineps` within the fuel budget: each iteration
multiplies `cureps` by `epsscale`, and the under-`mineps` check fires
before any other work. -/
theorem loopGo_term (func : List ℚ → ℚ) (vals : List ℚ) (i : Nat)
    (mineps reltol epsscale : ℚ) :
    ∀ (fuel : Nat) (leps cureps : ℚ) (flipflop : Nat) (cdiff : ℚ),
      cureps * epsscale ^ (fuel + 1) < mineps →
      ∃ v, loopGo func vals i mineps reltol epsscale (fuel + 1)
        leps cureps flipflop cdiff = some v := by
  intro fuel
  induction fuel with
  | zero =>
    intro leps cureps ff cdiff h
    rw [pow_one] at h
    exact ⟨0, by simp only [loopGo]; rw [if_pos (Or.inl h)]⟩
  | succ k ih =>
    intro leps cureps ff cdiff h
    by_cases hc : cureps * epsscale < mineps ∨ ff > 10
    · exact ⟨0, by simp only [loopGo]; rw [if_pos hc]⟩
    · have hrec : cureps * epsscale * epsscale ^ (k + 1) < mineps := by
        have : cureps * epsscale * epsscale ^ (k + 1) = cureps * epsscale ^ (k + 1 + 1) := by
          ring
        rwa [this]
      simp only [loopGo]
      rw [if_neg hc]
      by_cases h1 : centralDiff func vals i (leps * epsscale) = cdiff
      · exact ⟨cdiff, by rw [if_pos h1]⟩
      · rw [if_neg h1]
        by_cases h2 : centralDiff func vals i (leps * epsscale) ≠ 0 ∧
            0 < cdiff / centralDiff func vals i (leps * epsscale)
        · rw [if_pos h2]
          by_cases h3 : |1 - cdiff / centralDiff func vals i (leps * epsscale)| < reltol
          · exact ⟨_, by rw [if_pos h3]⟩
          · rw [if_neg h3]
            exact ih (leps * epsscale) (cureps * epsscale) ff _ hrec
        · rw [if_neg h2]
          exact ih (leps * epsscale) (cureps * epsscale) (ff + 1) _ hrec

theorem exists_loop_fuel (mineps epsscale cureps : ℚ)
    (hm : 0 < mineps) (h0 : 0 < epsscale) (h1 : epsscale < 1) :
    ∃ n : Nat, cureps * epsscale ^ (n + 1) < mineps := by
  rcases le_or_lt cureps 0 with hc | hc
  · refine ⟨0, lt_of_le_of_lt ?_ hm⟩
    have hp : (0:ℚ) ≤ epsscale ^ (0 + 1) := by positivity
    nlinarith
  · obtain ⟨n, hn⟩ := exists_pow_lt_of_lt_one (div_pos hm hc) h1
    refine ⟨n, ?_⟩
    have hpow : epsscale ^ (n + 1) ≤ epsscale ^ n :=
      pow_le_pow_of_le_one h0.le h1.le (Nat.le_succ n)
    calc cureps * epsscale ^ (n + 1) ≤ cureps * epsscale ^ n :=
          mul_le_mul_of_nonneg_left hpow hc.le
    _ < cureps * (mineps / cureps) := mul_lt_mul_of_pos_left hn hc
    _ = mineps := by field_simp

theorem loop_fuel_mono (mineps epsscale : ℚ)
    (hm : 0 < mineps) (h0 : 0 < epsscale) (h1 : epsscale < 1) (cureps : ℚ)
    {n m : Nat} (hnm : n ≤ m)
    (h : cureps * epsscale ^ (n + 1) < mineps) :
    cureps * epsscale ^ (m + 1) < mineps := by
  rcases le_or_lt cureps 0 with hc | hc
  · refine lt_of_le_of_lt ?_ hm
    have hp : (0:ℚ) ≤ epsscale ^ (m + 1) := by positivity
    nlinarith
  · have hpow : epsscale ^ (m + 1) ≤ epsscale ^ (n + 1) :=
      pow_le_pow_of_le_one h0.le h1.le (by omega)
    calc cureps * epsscale ^ (m + 1) ≤ cureps * epsscale ^ (n + 1) :=
          mul_le_mul_of_nonneg_left hpow hc.le
    _ < mineps := h

theorem exists_loop_fuel_list (mineps epsscale : ℚ)
    (hm : 0 < mineps) (h0 : 0 < epsscale) (h1 : epsscale < 1)
    (g : Int → ℚ) (l : List Int) :
    ∃ n : Nat, ∀ i ∈ l, g i * epsscale ^ (n + 1) < mineps := by
  induction l with
  | nil => exact ⟨0, by simp⟩
  | cons a t ih =>
    obtain ⟨n1, hn1⟩ := exists_loop_fuel mineps epsscale (g a) hm h0 h1
    obtain ⟨n2, hn2⟩ := ih
    refine ⟨max n1 n2, ?_⟩
    intro i hi
    rcases List.mem_cons.mp hi with rfl | hi
    · exact loop_fuel_mono mineps epsscale hm h0 h1 _ (le_max_left n1 n2) hn1
    · exact loop_fuel_mono mineps epsscale hm h0 h1 _ (le_max_right n1 n2) (hn2 i hi)

/-! ### Claim theorems -/

/-- **C5**: every invalid gradient-estimator input — an index set longer
than `vals`, an index `< 0` or `≥ len vals`, a step-size sequence whose
length differs from `len vals` (relative or absolute), or a step-size
representation that is neither a scalar nor a sequence — is rejected with
an error (`InvalidArgument` in the spec; `ValueError`/`RuntimeError` in the
code) before the objective function `func` is evaluated even once: the
error is a single fixed value, the same for every `func` and every fuel,
so no call of `func` can influence (or be needed for) the outcome. -/
theorem derivatives_rejects_invalid (vals : List ℚ) (l : List Int)
    (releps : StepArg ℚ) (abseps : Option (StepArg ℚ))
    (h : l.length > vals.length ∨
      (∃ i ∈ l, i < 0 ∨ (vals.length : Int) ≤ i) ∨
      (abseps = none ∧ ∃ rl, releps = .seq rl ∧ rl.length ≠ vals.length) ∨
      (abseps = none ∧ releps = .other) ∨
      (∃ al, abseps = some (.seq al) ∧ al.length ≠ vals.length) ∨
      abseps = some .other) :
    ∃ e, ∀ (func : List ℚ → ℚ) (mineps reltol epsscale : ℚ) (fuel : Nat),
      derivatives vals func releps abseps mineps reltol epsscale (some l) fuel =
        .error e := by
  have hprep : ∃ e, derivPrep vals releps abseps (some l) = .error e := by
    cases hp : derivPrep vals releps abseps (some l) with
    | error e => exact ⟨e, rfl⟩
    | ok st =>
      exfalso
      obtain ⟨nfi, eps, teps⟩ := st
      have hnfi := derivPrep_ok_nfi vals releps abseps (some l) nfi eps teps hp
      simp only [defaultIdx] at hnfi
      rw [hnfi] at hp
      rcases h with h1 | h2 | h3 | h4 | h5 | h6
      · have := derivPrep_ok_len vals releps abseps (some l) l eps teps hp
        omega
      · obtain ⟨i, hi, hbad⟩ := h2
        obtain ⟨hmax, hmin⟩ := derivPrep_ok_bounds vals releps abseps (some l) l eps teps hp
        rcases hbad with hneg | hge
        · have := foldl_min_le_mem l (l.headD 0) i hi
          omega
        · have := mem_le_foldl_max l (l.headD 0) i hi
          omega
      · obtain ⟨habs, rl, hrel, hlen⟩ := h3
        subst habs
        subst hrel
        exact hlen (derivPrep_relseq_len vals rl (some l) _ hp)
      · obtain ⟨habs, hrel⟩ := h4
        subst habs
        subst hrel
        exact derivPrep_relother_err vals (some l) _ hp
      · obtain ⟨al, habs, hlen⟩ := h5
        subst habs
        exact hlen (derivPrep_absseq_len vals releps al (some l) _ hp)
      · subst h6
        exact derivPrep_absother_err vals releps (some l) _ hp
  obtain ⟨e, he⟩ := hprep
  exact ⟨e, fun func mineps reltol epsscale fuel => by simp only [derivatives, he]⟩

theorem derivatives_rejects_invalid_witness :
    ∃ e, ∀ (func : List ℚ → ℚ) (mineps reltol epsscale : ℚ) (fuel : Nat),
      derivatives [(1:ℚ)] func (.scalar (1/2)) none mineps reltol epsscale
        (some [5]) fuel = .error e :=
  derivatives_rejects_invalid [(1:ℚ)] [5] (.scalar (1/2)) none
    (Or.inr (Or.inl ⟨5, by simp, Or.inr (by norm_num)⟩))

/-- **C10**: calling the gradient estimator with an empty non-fixed index
set — an explicit empty list, or the default indices of an empty `vals` —
raises an error rather than returning an empty gradient, because the
range validation `max(nonfixedidx) >= len(vals) or min(nonfixedidx) < 0`
calls `max`/`min` on the empty sequence unconditionally (only the
`len(nonfixedidx) > len(vals)` check comes first, and it passes). -/
theorem derivatives_empty_idx_raises :
    (∀ (func : List ℚ → ℚ) (mineps reltol epsscale : ℚ) (fuel : Nat),
      derivatives [(1:ℚ), 2] func (.scalar (1/1000)) none mineps reltol epsscale
        (some []) fuel = .error .emptySequenceMax) ∧
    (∀ (func : List ℚ → ℚ) (mineps reltol epsscale : ℚ) (fuel : Nat),
      derivatives ([] : List ℚ) func (.scalar (1/1000)) none mineps reltol epsscale
        none fuel = .error .emptySequenceMax) := by
  constructor <;>
    intro func mineps reltol epsscale fuel <;>
    norm_num [derivatives, derivPrep, defaultIdx]

/-- **C3**: for every input that passes pre-validation the estimator never
raises during the convergence loop. First conjunct: a successful
`derivPrep` makes `derivatives` return `.ok` (the loop has no error
outcome at all — only a value or, in the fuel model, `none`). Second
conjunct: the moment the scaled tracking step falls below `mineps` or the
flip-flop counter exceeds 10, the loop stops at once emitting exactly `0`
for that index (the code also logs a warning, a side effect outside the
embedding). Third conjunct: with `0 < mineps` and `0 < epsscale < 1`
(shrinking steps) enough fuel exists for the call to return a full
gradient list, one entry per requested index. -/
theorem derivatives_failsoft :
    (∀ (vals : List ℚ) (func : List ℚ → ℚ) (releps : StepArg ℚ)
        (abseps : Option (StepArg ℚ)) (mineps reltol epsscale : ℚ)
        (idx : Option (List Int)) (fuel : Nat)
        (st : List Int × List ℚ × List ℚ),
      derivPrep vals releps abseps idx = .ok st →
      ∃ r, derivatives vals func releps abseps mineps reltol epsscale idx fuel = .ok r) ∧
    (∀ (func : List ℚ → ℚ) (vals : List ℚ) (i : Nat)
        (mineps reltol epsscale : ℚ) (fuel : Nat) (leps cureps : ℚ)
        (flipflop : Nat) (cdiff : ℚ),
      cureps * epsscale < mineps ∨ flipflop > 10 →
      loopGo func vals i mineps reltol epsscale (fuel + 1) leps cureps flipflop cdiff =
        some 0) ∧
    (∀ (vals : List ℚ) (func : List ℚ → ℚ) (releps : StepArg ℚ)
        (abseps : Option (StepArg ℚ)) (mineps reltol epsscale : ℚ)
        (idx : Option (List Int)) (nfi : List Int) (eps teps : List ℚ),
      derivPrep vals releps abseps idx = .ok (nfi, eps, teps) →
      0 < mineps → 0 < epsscale → epsscale < 1 →
      ∃ fuel g,
        derivatives vals func releps abseps mineps reltol epsscale idx fuel =
          .ok (some g) ∧
        g.length = (defaultIdx vals idx).length) := by
  refine ⟨?_, ?_, ?_⟩
  · intro vals func releps abseps mineps reltol epsscale idx fuel st hprep
    obtain ⟨nfi, eps, teps⟩ := st
    exact ⟨collectResults
      (fun i => derivOne func vals mineps reltol epsscale eps teps i.toNat fuel) nfi,
      by simp only [derivatives, hprep]⟩
  · intro func vals i mineps reltol epsscale fuel leps cureps flipflop cdiff h
    simp only [loopGo]
    rw [if_pos h]
  · intro vals func releps abseps mineps reltol epsscale idx nfi eps teps hprep hm h0 h1
    obtain ⟨n, hn⟩ :=
      exists_loop_fuel_list mineps epsscale hm h0 h1 (fun i => teps.getD i.toNat 0) nfi
    have hall : ∀ i ∈ nfi,
        ∃ v, derivOne func vals mineps reltol epsscale eps teps i.toNat (n + 1) = some v := by
      intro i hi
      have := loopGo_term func vals i.toNat mineps reltol epsscale n
        (eps.getD i.toNat 0) (teps.getD i.toNat 0) 0
        (centralDiff func vals i.toNat (eps.getD i.toNat 0)) (hn i hi)
      simpa [derivOne] using this
    obtain ⟨g, hg⟩ := collectResults_all_some _ nfi hall
    refine ⟨n + 1, g, ?_, ?_⟩
    · simp only [derivatives, hprep]
      rw [hg]
    · rw [collectResults_length _ nfi g hg,
        derivPrep_ok_nfi vals releps abseps idx nfi eps teps hprep]

theorem derivatives_failsoft_witness :
    (∃ r, derivatives [(1:ℚ)] (fun _ => 0) (.scalar (1/2)) none (1/4) 1 (1/2)
      (some [0]) 3 = .ok r) ∧
    loopGo (fun _ => (0:ℚ)) [0] 0 1 1 1 1 0 1 11 5 = some 0 ∧
    (∃ fuel g, derivatives [(1:ℚ)] (fun _ => 0) (.scalar (1/2)) none (1/4) 1 (1/2)
      (some [0]) fuel = .ok (some g) ∧ g.length = (defaultIdx [(1:ℚ)] (some [0])).length) :=
  ⟨derivatives_failsoft.1 [(1:ℚ)] (fun _ => 0) (.scalar (1/2)) none (1/4) 1 (1/2)
      (some [0]) 3 ([0], [1/2], [1/2]) (by norm_num [derivPrep, defaultIdx]),
    derivatives_failsoft.2.1 (fun _ => (0:ℚ)) [0] 0 1 1 1 0 0 1 11 5
      (Or.inr (by norm_num)),
    derivatives_failsoft.2.2 [(1:ℚ)] (fun _ => 0) (.scalar (1/2)) none (1/4) 1 (1/2)
      (some [0]) [0] [1/2] [1/2] (by norm_num [derivPrep, defaultIdx])
      (by norm_num) (by norm_num) (by norm_num)⟩

/-- **C1**: one iteration of the per-index convergence loop, given that the
failure check (`cureps * epsscale < mineps or flipflop > 10`) does not
fire. The freshly recomputed central difference `cdiffnew` is accepted as
the gradient component — ending the loop — exactly when `cdiffnew = cdiff`
or the ratio `cdiff / cdiffnew` is finite (nonzero denominator, the exact
counterpart of float finiteness), strictly positive, and within `reltol`
of 1; in every other case the loop continues with `cdiff` updated to
`cdiffnew`, incrementing the flip-flop counter exactly when the ratio is
non-finite (`cdiffnew = 0`), zero or negative (`cdiff / cdiffnew ≤ 0`). -/
theorem loop_accept_iff (func : List ℚ → ℚ) (vals : List ℚ) (i : Nat)
    (mineps reltol epsscale : ℚ) (fuel : Nat) (leps cureps : ℚ)
    (flipflop : Nat) (cdiff cdiffnew : ℚ)
    (hnew : cdiffnew = centralDiff func vals i (leps * epsscale))
    (hc : ¬(cureps * epsscale < mineps ∨ flipflop > 10)) :
    ((cdiffnew = cdiff ∨
        (cdiffnew ≠ 0 ∧ 0 < cdiff / cdiffnew ∧ |1 - cdiff / cdiffnew| < reltol)) →
      loopGo func vals i mineps reltol epsscale (fuel + 1) leps cureps flipflop cdiff =
        some cdiffnew) ∧
    (¬(cdiffnew = cdiff ∨
        (cdiffnew ≠ 0 ∧ 0 < cdiff / cdiffnew ∧ |1 - cdiff / cdiffnew| < reltol)) →
      loopGo func vals i mineps reltol epsscale (fuel + 1) leps cureps flipflop cdiff =
        loopGo func vals i mineps reltol epsscale fuel (leps * epsscale) (cureps * epsscale)
          (if cdiffnew = 0 ∨ cdiff / cdiffnew ≤ 0 then flipflop + 1 else flipflop)
          cdiffnew ∧
      ((if cdiffnew = 0 ∨ cdiff / cdiffnew ≤ 0 then flipflop + 1 else flipflop) =
          flipflop + 1 ↔
        (cdiffnew = 0 ∨ cdiff / cdiffnew ≤ 0))) := by
  subst hnew
  constructor
  · intro hacc
    simp only [loopGo]
    rw [if_neg hc]
    by_cases heq : centralDiff func vals i (leps * epsscale) = cdiff
    · rw [if_pos heq, heq]
    · rw [if_neg heq]
      rcases hacc with h | ⟨hne, hpos, htol⟩
      · exact absurd h heq
      · rw [if_pos ⟨hne, hpos⟩, if_pos htol]
  · intro hrej
    push_neg at hrej
    obtain ⟨hne, hrat⟩ := hrej
    refine ⟨?_, ?_, ?_⟩
    · simp only [loopGo]
      rw [if_neg hc, if_neg hne]
      by_cases hb : centralDiff func vals i (leps * epsscale) ≠ 0 ∧
          0 < cdiff / centralDiff func vals i (leps * epsscale)
      · rw [if_pos hb, if_neg (not_lt.mpr (hrat hb.1 hb.2))]
        have hcond : ¬(centralDiff func vals i (leps * epsscale) = 0 ∨
            cdiff / centralDiff func vals i (leps * epsscale) ≤ 0) := by
          rintro (h | h)
          · exact hb.1 h
          · exact absurd hb.2 (not_lt.mpr h)
        rw [if_neg hcond]
      · rw [if_neg hb]
        have hcond : centralDiff func vals i (leps * epsscale) = 0 ∨
            cdiff / centralDiff func vals i (leps * epsscale) ≤ 0 := by
          rcases not_and_or.mp hb with h | h
          · exact Or.inl (not_not.mp h)
          · exact Or.inr (not_lt.mp h)
        rw [if_pos hcond]
    · intro hif
      by_contra hcond
      rw [if_neg hcond] at hif
      omega
    · intro hcond
      rw [if_pos hcond]

theorem loop_accept_iff_witness :
    loopGo (fun _ => (0:ℚ)) [0] 0 0 1 1 1 1 1 0 0 =
      some (centralDiff (fun _ => (0:ℚ)) [0] 0 (1 * 1)) :=
  (loop_accept_iff (fun _ => (0:ℚ)) [0] 0 0 1 1 0 1 1 0 0 _ rfl
    (by norm_num)).1 (Or.inl (by norm_num [centralDiff]))

/-- The `eps` array computed by `derivPrep` for a relative scalar step is
`|vals[i]| * releps` with fallback to `releps` where the product is zero. -/
theorem derivPrep_scalar_eps (vals : List ℚ) (r : ℚ) (idx : Option (List Int))
    (nfi : List Int) (eps teps : List ℚ)
    (h : derivPrep vals (.scalar r) none idx = .ok (nfi, eps, teps)) :
    eps = vals.map (fun v => if |v| * r = 0 then r else |v| * r) := by
  simp only [derivPrep] at h
  repeat' split at h
  all_goals simp_all

/-- Same for the per-parameter (sequence) relative step. -/
theorem derivPrep_seq_eps (vals : List ℚ) (rl : List ℚ) (idx : Option (List Int))
    (nfi : List Int) (eps teps : List ℚ)
    (h : derivPrep vals (.seq rl) none idx = .ok (nfi, eps, teps)) :
    eps = List.zipWith (fun v r => if |v| * r = 0 then r else |v| * r) vals rl := by
  simp only [derivPrep] at h
  repeat' split at h
  all_goals try simp_all
  all_goals obtain ⟨h1, h2, h3⟩ := h
  all_goals subst h3
  all_goals exact h2.symm

theorem zipWith_step_nonzero (vals rl : List ℚ) (r0 : ∀ x ∈ rl, x ≠ 0) :
    ∀ q ∈ List.zipWith (fun v r => if |v| * r = 0 then r else |v| * r) vals rl,
      q ≠ 0 := by
  induction vals generalizing rl with
  | nil => intro q hq; simp at hq
  | cons v t ih =>
    cases rl with
    | nil => intro q hq; simp at hq
    | cons rr rt =>
      intro q hq
      simp only [List.zipWith_cons_cons] at hq
      rcases List.mem_cons.mp hq with rfl | hq
      · by_cases hz : |v| * rr = 0
        · rw [if_pos hz]; exact r0 rr (List.mem_cons_self _ _)
        · rw [if_neg hz]; exact hz
      · exact ih rt (fun x hx => r0 x (List.mem_cons_of_mem _ hx)) q hq

/-- **C9** (amended): for a relative step specification the initial
absolute half-step satisfies `eps[i] = |vals[i]| * releps` (elementwise
for a per-parameter sequence), falling back to `releps` (resp.
`releps[i]`) whenever that product is exactly zero; consequently,
*provided the relative step is nonzero* (elementwise), no index starts
its convergence loop with a zero step. The nonzero proviso is the
amendment: `releps = 0` itself passes validation and produces a zero
step (see the counterexample). -/
theorem relstep_init_nonzero :
    (∀ (vals : List ℚ) (r : ℚ) (idx : Option (List Int))
        (nfi : List Int) (eps teps : List ℚ),
      derivPrep vals (.scalar r) none idx = .ok (nfi, eps, teps) →
      eps = vals.map (fun v => if |v| * r = 0 then r else |v| * r) ∧
      (r ≠ 0 → ∀ q ∈ eps, q ≠ 0)) ∧
    (∀ (vals rl : List ℚ) (idx : Option (List Int))
        (nfi : List Int) (eps teps : List ℚ),
      derivPrep vals (.seq rl) none idx = .ok (nfi, eps, teps) →
      eps = List.zipWith (fun v r => if |v| * r = 0 then r else |v| * r) vals rl ∧
      ((∀ x ∈ rl, x ≠ 0) → ∀ q ∈ eps, q ≠ 0)) := by
  constructor
  · intro vals r idx nfi eps teps h
    have heps := derivPrep_scalar_eps vals r idx nfi eps teps h
    subst heps
    refine ⟨rfl, ?_⟩
    intro hr q hq
    obtain ⟨v, hv, rfl⟩ := List.mem_map.mp hq
    by_cases hz : |v| * r = 0
    · rw [if_pos hz]; exact hr
    · rw [if_neg hz]; exact hz
  · intro vals rl idx nfi eps teps h
    have heps := derivPrep_seq_eps vals rl idx nfi eps teps h
    subst heps
    exact ⟨rfl, fun hr => zipWith_step_nonzero vals rl hr⟩

theorem relstep_init_nonzero_witness :
    ([(1:ℚ)/2, 3/2] = [(0:ℚ), 3].map (fun v => if |v| * (1/2) = 0 then 1/2 else |v| * (1/2)) ∧
      ((1:ℚ)/2 ≠ 0 → ∀ q ∈ [(1:ℚ)/2, 3/2], q ≠ 0)) ∧
    ∀ q ∈ [(1:ℚ)/2, 3/2], q ≠ 0 := by
  have h := relstep_init_nonzero.1 [(0:ℚ), 3] (1/2) (some [0]) [0] [1/2, 3/2] [1/2, 1/2]
    (by norm_num [derivPrep, defaultIdx, List.replicate])
  refine ⟨⟨?_, h.2⟩, h.2 (by norm_num)⟩
  have := h.1
  simpa using this

/-- **C9** counterexample: with the relative scalar step `releps = 0` (a
legitimate `float` for the code's `isinstance` dispatch, and the product
`|vals[i]| * 0` is exactly zero) the fallback assigns `eps[0] = releps = 0`,
so index 0 starts its convergence loop with a zero step — refuting the
claim's "no index ever starts its convergence loop with a zero step". The
call still completes, emitting the non-convergence fallback `0`. -/
theorem relstep_zero_counterexample :
    derivPrep [(1:ℚ)] (.scalar 0) none (some [0]) = .ok ([0], [0], [0]) ∧
    derivatives [(1:ℚ)] (fun v => v.getD 0 0) (.scalar 0) none
      (1/1000000000) (1/1000) (1/2) (some [0]) 1 = .ok (some [0]) := by
  constructor
  · norm_num [derivPrep, defaultIdx]
  · norm_num [derivatives, derivPrep, defaultIdx, collectResults, derivOne, loopGo,
      centralDiff]

/-- **C2**: for log-values of length at least 2, `logtrapzexp` with a
scalar step returns `log(step/2) + logsumexp [logsumexp a, logsumexp b]`
for the slices `a = lnf[0:n-1]`, `b = lnf[1:n]`; with a step sequence of
length `n-1` it returns `-log 2` plus the same expression after adding
`log step[i]` elementwise to both slices; and in particular
`logtrapzexp [0,0,0] 1 = log 2`. -/
theorem logtrapzexp_spec :
    (∀ (lnf : List ℝ) (v : ℝ), 2 ≤ lnf.length →
      logtrapzexp lnf (.scalar v) =
        .ok (Real.log (v / 2) +
          logsumexp [logsumexp (lnf.take (lnf.length - 1)), logsumexp (lnf.drop 1)])) ∧
    (∀ (lnf d : List ℝ), 2 ≤ lnf.length → d.length = lnf.length - 1 →
      logtrapzexp lnf (.seq d) =
        .ok (-Real.log 2 +
          logsumexp [logsumexp (List.zipWith (fun a b => a + b)
              (lnf.take (lnf.length - 1)) (d.map Real.log)),
            logsumexp (List.zipWith (fun a b => a + b)
              (lnf.drop 1) (d.map Real.log))])) ∧
    logtrapzexp [(0:ℝ), 0, 0] (.scalar 1) = .ok (Real.log 2) := by
  refine ⟨?_, ?_, ?_⟩
  · intro lnf v hlen
    simp only [logtrapzexp, List.dropLast_eq_take]
  · intro lnf d hlen hd
    simp only [logtrapzexp, List.dropLast_eq_take]
    rw [if_neg (by omega)]
  · have h2 : logsumexp [(0:ℝ), 0] = Real.log 2 := by
      simp only [logsumexp, List.map, Real.exp_zero, List.sum_cons, List.sum_nil]
      norm_num
    have h4 : logsumexp [Real.log 2, Real.log 2] = Real.log 4 := by
      simp only [logsumexp, List.map, List.sum_cons, List.sum_nil,
        Real.exp_log two_pos]
      norm_num
    have hd1 : ([(0:ℝ), 0, 0]).dropLast = [0, 0] := rfl
    have hd2 : ([(0:ℝ), 0, 0]).drop 1 = [0, 0] := rfl
    simp only [logtrapzexp, hd1, hd2, h2, h4]
    have : Real.log (1 / 2) + Real.log 4 = Real.log 2 := by
      rw [← Real.log_mul (by norm_num) (by norm_num)]
      norm_num
    rw [this]

theorem logtrapzexp_spec_witness :
    logtrapzexp [(0:ℝ), 0] (.scalar 1) =
      .ok (Real.log ((1:ℝ) / 2) +
        logsumexp [logsumexp ([(0:ℝ), 0].take 1), logsumexp ([(0:ℝ), 0].drop 1)]) := by
  have h := logtrapzexp_spec.1 [(0:ℝ), 0] 1 (by norm_num)
  simpa using h

/-- **C8**: `logtrapzexp` rejects a step sequence whose length is not
`len lnf - 1`, and a step argument that is neither a scalar nor a
sequence, in both cases before computing any log-sum-exp: the result is an
error carrying no value, and it is determined by the lengths alone — any
log-value list of the same length produces the identical error. -/
theorem logtrapzexp_validation :
    (∀ (lnf d : List ℝ), d.length ≠ lnf.length - 1 →
      logtrapzexp lnf (.seq d) = .error .stepLengthMismatch) ∧
    (∀ lnf : List ℝ, logtrapzexp lnf .other = .error .stepTypeBad) ∧
    (∀ (lnf lnf' d : List ℝ), lnf.length = lnf'.length →
      d.length ≠ lnf.length - 1 →
      logtrapzexp lnf (.seq d) = logtrapzexp lnf' (.seq d)) := by
  refine ⟨?_, ?_, ?_⟩
  · intro lnf d hd
    simp only [logtrapzexp]
    rw [if_pos hd]
  · intro lnf
    simp only [logtrapzexp]
  · intro lnf lnf' d hlen hd
    simp only [logtrapzexp]
    rw [if_pos hd, if_pos (by omega)]

theorem logtrapzexp_validation_witness :
    logtrapzexp [(0:ℝ), 0, 0] (.seq [1]) = .error .stepLengthMismatch ∧
    logtrapzexp [(5:ℝ), 7, 9] (.seq [1]) = logtrapzexp [(0:ℝ), 1, 2] (.seq [1]) :=
  ⟨logtrapzexp_validation.1 [(0:ℝ), 0, 0] [1] (by norm_num),
    logtrapzexp_validation.2.2 [(5:ℝ), 7, 9] [(0:ℝ), 1, 2] [1] (by norm_num) (by norm_num)⟩

/-- If `s` broadcasts against `t`, then `t` broadcasts against the
broadcast result `zipWith max s t` (needed because `_sanitize_inputs`
multiplies `y` by ones of the *already broadcast* `x`). -/
theorem compatShape_second : ∀ s t : List Nat, compatShape s t = true →
    compatShape t (List.zipWith max s t) = true := by
  intro s
  induction s with
  | nil =>
    intro t h
    cases t with
    | nil => rfl
    | cons b t => simp [compatShape] at h
  | cons a s ih =>
    intro t h
    cases t with
    | nil => simp [compatShape] at h
    | cons b t =>
      simp only [compatShape, Bool.and_eq_true, Bool.or_eq_true,
        decide_eq_true_eq, List.zipWith_cons_cons] at h ⊢
      obtain ⟨hab, hrest⟩ := h
      exact ⟨by rcases hab with h | h | h <;> omega, ih t hrest⟩

theorem zipWith_max_absorb : ∀ s t : List Nat, s.length = t.length →
    List.zipWith max t (List.zipWith max s t) = List.zipWith max s t := by
  intro s
  induction s with
  | nil =>
    intro t h
    cases t with
    | nil => rfl
    | cons b t => simp at h
  | cons a s ih =>
    intro t h
    cases t with
    | nil => simp at h
    | cons b t =>
      simp only [List.zipWith_cons_cons]
      rw [ih t (by simpa using h)]
      congr 1
      omega

theorem padTo_length (a : Arr) (r : Nat) :
    (padTo a r).shape.length = max a.shape.length r := by
  simp only [padTo, List.length_append, List.length_replicate]
  omega

/-- **C4**: the surface evaluator classifies a query point as
out-of-bounds exactly when `x < x_min or x > x_max or y < y_min or
y > y_max`; out-of-bounds points receive `fill_value` without invoking the
underlying spline evaluator (the result is independent of `ev`); a point
exactly on a domain boundary is in-bounds and receives the surface's own
value `ev x y`, never the fill value. -/
theorem interp_bounds :
    (∀ (s : UnsortedInterp2d) (x y : ℚ),
      outOfBounds s x y = true ↔
        (x < s.x_min ∨ x > s.x_max ∨ y < s.y_min ∨ y > s.y_max)) ∧
    (∀ (s : UnsortedInterp2d) (x y : ℚ),
      UnsortedInterp2d.call s (.num x) (.num y) =
        .ok (.num (if outOfBounds s x y then s.fill_value else s.ev x y))) ∧
    (∀ (s : UnsortedInterp2d) (f : ℚ → ℚ → ℚ) (x y : ℚ),
      outOfBounds s x y = true →
      UnsortedInterp2d.call { s with ev := f } (.num x) (.num y) =
        .ok (.num s.fill_value)) ∧
    (∀ (s : UnsortedInterp2d) (x y : ℚ),
      s.x_min ≤ x → x ≤ s.x_max → s.y_min ≤ y → y ≤ s.y_max →
      (x = s.x_min ∨ x = s.x_max ∨ y = s.y_min ∨ y = s.y_max) →
      UnsortedInterp2d.call s (.num x) (.num y) = .ok (.num (s.ev x y))) := by
  refine ⟨?_, ?_, ?_, ?_⟩
  · intro s x y
    simp [outOfBounds, or_assoc]
  · intro s x y
    rfl
  · intro s f x y h
    have hb : outOfBounds { s with ev := f } x y = true := h
    have hcall : UnsortedInterp2d.call { s with ev := f } (.num x) (.num y) =
        .ok (.num (if outOfBounds { s with ev := f } x y then s.fill_value
          else f x y)) := rfl
    rw [hcall, if_pos hb]
  · intro s x y h1 h2 h3 h4 _
    have hb : outOfBounds s x y = false := by
      simp only [outOfBounds, Bool.or_eq_false_iff, decide_eq_false_iff_not, not_lt]
      exact ⟨⟨h1, h2⟩, h3, h4⟩
    have hcall : UnsortedInterp2d.call s (.num x) (.num y) =
        .ok (.num (if outOfBounds s x y then s.fill_value else s.ev x y)) := rfl
    rw [hcall, hb]
    rfl

theorem interp_bounds_witness :
    UnsortedInterp2d.call
        { x_min := 0, x_max := 1, y_min := 0, y_max := 1, fill_value := 99,
          ev := fun a b => a + b } (.num 2) (.num 0) = .ok (.num 99) ∧
    UnsortedInterp2d.call
        { x_min := 0, x_max := 1, y_min := 0, y_max := 1, fill_value := 99,
          ev := fun a b => a + b } (.num 0) (.num (1/2)) = .ok (.num (0 + 1/2)) :=
  ⟨interp_bounds.2.2.1
      { x_min := 0, x_max := 1, y_min := 0, y_max := 1, fill_value := 99,
        ev := fun a b => a + b } (fun a b => a + b) 2 0
      (by norm_num [outOfBounds]),
    interp_bounds.2.2.2
      { x_min := 0, x_max := 1, y_min := 0, y_max := 1, fill_value := 99,
        ev := fun a b => a + b } 0 (1/2) (by norm_num) (by norm_num)
      (by norm_num) (by norm_num) (Or.inl rfl)⟩

/-- **C7**: surface evaluation pairs the reconciled inputs element-wise,
never as an outer-product grid. Scalar inputs give a scalar output; a
scalar `x` with a length-5 array `y` gives a length-5 array whose entry at
each index depends only on that index's `y` entry; and in general any
reconciled array pair gives an array of the broadcast shape evaluated
pointwise at the paired `(x[k], y[k])`. -/
theorem interp_pairing :
    (∀ (s : UnsortedInterp2d) (x y : ℚ), ∃ v,
      UnsortedInterp2d.call s (.num x) (.num y) = .ok (.num v)) ∧
    (∀ (s : UnsortedInterp2d) (x : ℚ) (ya : Arr), ya.shape = [5] →
      ∃ out : Arr, UnsortedInterp2d.call s (.num x) (.arr ya) = .ok (.arr out) ∧
        out.shape = [5] ∧
        ∀ idx, out.get idx =
          if outOfBounds s x (ya.get idx) then s.fill_value
          else s.ev x (ya.get idx)) ∧
    (∀ (s : UnsortedInterp2d) (x y : XY) (xa ya : Arr),
      sanitizeInputs x y = .ok (.arrs xa ya) →
      ∃ out : Arr, UnsortedInterp2d.call s x y = .ok (.arr out) ∧
        out.shape = xa.shape ∧
        ∀ idx, out.get idx =
          if outOfBounds s (xa.get idx) (ya.get idx) then s.fill_value
          else s.ev (xa.get idx) (ya.get idx)) := by
  refine ⟨?_, ?_, ?_⟩
  · intro s x y
    exact ⟨_, rfl⟩
  · intro s x ya hsh
    have hcol : collapse (.arr ya) = .arr ya := by
      simp [collapse, hsh]
    have hsan : sanitizeInputs (.num x) (.arr ya) =
        .ok (.arrs (constArr ya.shape x) ya) := by
      simp [sanitizeInputs, collapse, hsh]
    refine ⟨⟨ya.shape, fun idx =>
      if outOfBounds s x (ya.get idx) then s.fill_value
      else s.ev x (ya.get idx)⟩, ?_, hsh, fun idx => rfl⟩
    simp only [UnsortedInterp2d.call, hsan]
    rfl
  · intro s x y xa ya hsan
    exact ⟨⟨xa.shape, fun idx =>
      if outOfBounds s (xa.get idx) (ya.get idx) then s.fill_value
      else s.ev (xa.get idx) (ya.get idx)⟩,
      by simp only [UnsortedInterp2d.call, hsan], rfl, fun idx => rfl⟩

theorem interp_pairing_witness :
    (∃ out : Arr,
      UnsortedInterp2d.call
        { x_min := 0, x_max := 10, y_min := 0, y_max := 10, fill_value := 99,
          ev := fun a b => a + b } (.num 1) (.arr ⟨[5], fun _ => 3⟩) =
        .ok (.arr out) ∧
      out.shape = [5] ∧
      ∀ idx, out.get idx =
        if outOfBounds
            { x_min := 0, x_max := 10, y_min := 0, y_max := 10, fill_value := 99,
              ev := fun a b => a + b } 1 ((⟨[5], fun _ => 3⟩ : Arr).get idx)
          then (99:ℚ) else 1 + (⟨[5], fun _ => 3⟩ : Arr).get idx) :=
  interp_pairing.2.1
    { x_min := 0, x_max := 10, y_min := 0, y_max := 10, fill_value := 99,
      ev := fun a b => a + b } 1 ⟨[5], fun _ => 3⟩ rfl

theorem bmulOnes_pos (a : Arr) (t : List Nat) (h : compatShape a.shape t = true) :
    bmulOnes a t =
      some ⟨List.zipWith max a.shape t, fun idx => a.get (bcastIdx a.shape idx)⟩ := by
  simp [bmulOnes, h]

theorem bmulOnes_neg (a : Arr) (t : List Nat) (h : compatShape a.shape t = false) :
    bmulOnes a t = none := by
  simp [bmulOnes, h]

/-- **C6**: when both query inputs are multi-element arrays of differing
rank, `_sanitize_inputs` right-pads the lower-rank one with trailing
size-1 dimensions until the ranks match, and then broadcasts each against
the other (the reconciled arrays share the elementwise-max shape); when
the shapes remain incompatible after this expansion, `__call__` raises
with the original, pre-reconciliation shapes of `x` and `y` — as on the
concrete pair of shapes `(3,)` and `(4,)`. -/
theorem sanitize_broadcast :
    (∀ (s : UnsortedInterp2d) (xa ya : Arr),
      xa.shape.prod ≠ 1 → ya.shape.prod ≠ 1 →
      xa.shape.length ≠ ya.shape.length →
      (padTo xa (max xa.shape.length ya.shape.length)).shape.length =
        max xa.shape.length ya.shape.length ∧
      (padTo ya (max xa.shape.length ya.shape.length)).shape.length =
        max xa.shape.length ya.shape.length ∧
      (compatShape (padTo xa (max xa.shape.length ya.shape.length)).shape
          (padTo ya (max xa.shape.length ya.shape.length)).shape = true →
        ∃ xb yb, sanitizeInputs (.arr xa) (.arr ya) = .ok (.arrs xb yb) ∧
          xb.shape = List.zipWith max
            (padTo xa (max xa.shape.length ya.shape.length)).shape
            (padTo ya (max xa.shape.length ya.shape.length)).shape ∧
          yb.shape = xb.shape) ∧
      (compatShape (padTo xa (max xa.shape.length ya.shape.length)).shape
          (padTo ya (max xa.shape.length ya.shape.length)).shape = false →
        UnsortedInterp2d.call s (.arr xa) (.arr ya) =
          .error (.shapeMismatch xa.shape ya.shape))) ∧
    (∀ s : UnsortedInterp2d,
      UnsortedInterp2d.call s (.arr ⟨[3], fun _ => 0⟩) (.arr ⟨[4], fun _ => 0⟩) =
        .error (.shapeMismatch [3] [4])) := by
  constructor
  · intro s xa ya hx hy hrank
    have hcol_x : collapse (.arr xa) = .arr xa := by
      simp [collapse, hx]
    have hcol_y : collapse (.arr ya) = .arr ya := by
      simp [collapse, hy]
    have hne : xa.shape ≠ ya.shape := fun hh => hrank (congrArg List.length hh)
    refine ⟨by rw [padTo_length]; omega, by rw [padTo_length]; omega, ?_, ?_⟩
    · intro hcompat
      have hsan : sanitizeInputs (.arr xa) (.arr ya) =
          .ok (.arrs
            ⟨List.zipWith max (padTo xa (max xa.shape.length ya.shape.length)).shape
                (padTo ya (max xa.shape.length ya.shape.length)).shape,
              fun idx => (padTo xa (max xa.shape.length ya.shape.length)).get
                (bcastIdx (padTo xa (max xa.shape.length ya.shape.length)).shape idx)⟩
            ⟨List.zipWith max (padTo ya (max xa.shape.length ya.shape.length)).shape
                (List.zipWith max (padTo xa (max xa.shape.length ya.shape.length)).shape
                  (padTo ya (max xa.shape.length ya.shape.length)).shape),
              fun idx => (padTo ya (max xa.shape.length ya.shape.length)).get
                (bcastIdx (padTo ya (max xa.shape.length ya.shape.length)).shape idx)⟩) := by
        simp only [sanitizeInputs, hcol_x, hcol_y, if_neg hne,
          bmulOnes_pos _ _ hcompat]
        simp only [bmulOnes_pos _ _ (compatShape_second _ _ hcompat)]
      refine ⟨_, _, hsan, rfl, ?_⟩
      exact zipWith_max_absorb _ _ (by rw [padTo_length, padTo_length]; omega)
    · intro hfail
      have hsan : sanitizeInputs (.arr xa) (.arr ya) =
          .error (.shapeMismatch xa.shape ya.shape) := by
        simp only [sanitizeInputs, hcol_x, hcol_y, if_neg hne,
          bmulOnes_neg _ _ hfail]
      simp only [UnsortedInterp2d.call, hsan]
  · intro s
    rfl

theorem sanitize_broadcast_witness :
    (padTo (⟨[2, 1], fun _ => 0⟩ : Arr) 2).shape.length = 2 ∧
    (∃ xb yb,
      sanitizeInputs (.arr (⟨[2, 1], fun _ => 0⟩ : Arr))
          (.arr (⟨[2], fun _ => 0⟩ : Arr)) = .ok (.arrs xb yb) ∧
      xb.shape = List.zipWith max (padTo (⟨[2, 1], fun _ => 0⟩ : Arr) 2).shape
        (padTo (⟨[2], fun _ => 0⟩ : Arr) 2).shape ∧
      yb.shape = xb.shape) := by
  have h := sanitize_broadcast.1
    { x_min := 0, x_max := 1, y_min := 0, y_max := 1, fill_value := 99,
      ev := fun a b => a + b }
    ⟨[2, 1], fun _ => 0⟩ ⟨[2], fun _ => 0⟩
    (by norm_num) (by norm_num) (by norm_num)
  exact ⟨h.1, h.2.2.1 (by rfl)⟩

end BilbyCalculus
